import Mathlib

/-
Verification of the daily scheduling engine of `obs_prayer_switcher.py`
(obs-salah-switcher).  The Python source is shallowly embedded: pure
functions become Lean functions, the mutable APScheduler job set becomes
explicit state (a list of jobs) threaded through `schedule_today`, and the
browser interaction of the scraper is abstracted into a list of observed
page items.  Wall-clock times of day are measured in minutes since
midnight; `datetime.now` is modelled by a `now : Nat` parameter at minute
granularity, which is the granularity at which every comparison in the
source is decided.
-/

namespace ObsSalahSwitcher

/-! ## Time parsing (`convert_to_24h`, lines 154-167)

The source removes every newline and space, strips the ends, and matches
the regular expression `(\d{1,2}):(\d{2})\s*(AM|PM|am|pm)` with `re.match`
(anchored at the start of the string only; trailing text is allowed).
The embedding works on `String.data` (the list of characters). -/

/-- The ASCII whitespace characters of Python's `str.strip` / regex `\s`. -/
def isPySpace (c : Char) : Bool :=
  c = ' ' || c = '\t' || c = '\n' || c = '\x0b' || c = '\x0c' || c = '\r'

/-- Python `str.strip()` on a character list (ASCII whitespace). -/
def pystrip (cs : List Char) : List Char :=
  ((cs.dropWhile isPySpace).reverse.dropWhile isPySpace).reverse

/-- Numeric value of an ASCII digit character. -/
def digitVal (c : Char) : Nat := c.toNat - 48

/-- The alternation `(AM|PM|am|pm)` of the regex, matched against the head
of the remaining input (`re.match` permits trailing characters).  Returns
`some true` for PM, `some false` for AM. -/
def ampmFlag : List Char → Option Bool
  | a :: b :: _ =>
    if (a = 'A' ∧ b = 'M') ∨ (a = 'a' ∧ b = 'm') then some false
    else if (a = 'P' ∧ b = 'M') ∨ (a = 'p' ∧ b = 'm') then some true
    else none
  | _ => none

/-- The part of the regex after the hour group: `:(\d{2})\s*(AM|PM|am|pm)`.
`h` is the already-parsed hour group. -/
def matchTail (h : Nat) : List Char → Option (Nat × Nat × Bool)
  | ':' :: d1 :: d2 :: rest =>
    if d1.isDigit ∧ d2.isDigit then
      match ampmFlag (rest.dropWhile isPySpace) with
      | some pm => some (h, digitVal d1 * 10 + digitVal d2, pm)
      | none => none
    else none
  | _ => none

/-- `re.match` of `(\d{1,2}):(\d{2})\s*(AM|PM|am|pm)` at the start of the
input.  The greedy two-digit hour is attempted first; the one-digit
alternative only arises when the second character is not a digit (if it is
a digit, the one-digit attempt would require `:` at a digit position and
fail anyway, exactly as the backtracking regex engine behaves). -/
def pymatch : List Char → Option (Nat × Nat × Bool)
  | [] => none
  | c1 :: rest =>
    if c1.isDigit then
      match rest with
      | c2 :: rest2 =>
        if c2.isDigit then matchTail (digitVal c1 * 10 + digitVal c2) rest2
        else matchTail (digitVal c1) rest
      | [] => none
    else none

/-- Python's `f"{n:02d}"` for the two-digit fields of the result. -/
def pad2 (n : Nat) : String :=
  if n < 10 then "0" ++ toString n else toString n

/-- `convert_to_24h` (lines 154-167): strip newlines/spaces, match the
12-hour pattern, apply the AM/PM conversion with the 12 AM / 12 PM edge
cases, then range-check hours and minutes.  Returns `none` exactly where
the Python function returns `None`. -/
def convert_to_24h (s : String) : Option String :=
  match pymatch (pystrip (s.data.filter (fun c => ¬ (c = '\n' ∨ c = ' ')))) with
  | none => none
  | some (h, m, pm) =>
    let h2 := if pm = true ∧ h ≠ 12 then h + 12
              else if pm = false ∧ h = 12 then 0
              else h
    if h2 ≤ 23 ∧ m ≤ 59 then some (pad2 h2 ++ ":" ++ pad2 m) else none

theorem convert_examples :
    convert_to_24h "7:30 AM" = some "07:30" ∧
    convert_to_24h "11:59 pm" = some "23:59" := by decide

/-- C4: the time parser maps 12-hour text to 24-hour time with the
midnight/noon edge cases — `"12:00 AM"` yields `00:00`, `"12:00 PM"`
yields `12:00`, `"1:05 pm"` yields `13:05`, and the invalid hour
`"13:05 PM"` yields no value; malformed inputs yield no value (the
embedding is a total function into `Option`, modelling that the source
returns `None` instead of raising). -/
theorem convert_to_24h_edge_cases :
    convert_to_24h "12:00 AM" = some "00:00" ∧
    convert_to_24h "12:00 PM" = some "12:00" ∧
    convert_to_24h "1:05 pm" = some "13:05" ∧
    convert_to_24h "13:05 PM" = none ∧
    convert_to_24h "" = none ∧
    convert_to_24h "garbage" = none ∧
    convert_to_24h "1:05" = none := by decide

/-- C9: because the match is anchored only at the start (`re.match`) and
all spaces and newlines are removed before matching, trailing garbage
after the AM/PM marker and whitespace embedded anywhere in the digits
still parse successfully. -/
theorem convert_to_24h_accepts_trailing_garbage :
    convert_to_24h "1:05 PMx" = some "13:05" ∧
    convert_to_24h "1 : 0 5 P\nM" = some "13:05" ∧
    convert_to_24h "12:00 AM GMT" = some "00:00" := by decide

/-! ## Data model

Times of day (`"HH:MM"` strings in the Python dicts) are represented by
their parsed hour/minute pair, which is what `schedule_today` immediately
recovers via `time_str.split(":")`.  A scheduler job carries its string
id, its run time in minutes since midnight, and its payload. -/

/-- An hour/minute wall-clock time of day, the parsed form of the
`"HH:MM"` strings stored in the iqama-time dictionaries. -/
structure HM where
  h : Nat
  m : Nat
deriving DecidableEq

/-- Minutes since midnight. -/
def HM.toMin (t : HM) : Nat := t.h * 60 + t.m

/-- A job payload: `switch_to_prayer`, `switch_to_default`, or the
recurring `schedule_today` refresh of the two cron triggers. -/
inductive Act where
  | enterSpecial
  | restoreDefault
  | refreshCycle
deriving DecidableEq

/-- An APScheduler job: string id, run time (minutes since midnight on
the scheduled day), payload. -/
structure Job where
  id : String
  runMin : Nat
  act : Act
deriving DecidableEq

/-- Configuration constants of the source (lines 41-54). -/
def PRAYER_DURATION_MINUTES : Nat := 10

/-- `JUMUAH_START = "13:25"`, in minutes since midnight. -/
def JUMUAH_START : Nat := 13 * 60 + 25

/-- `JUMUAH_END = "14:15"`, in minutes since midnight. -/
def JUMUAH_END : Nat := 14 * 60 + 15

def PRAYER_NAMES : List String := ["Fajr", "Dhuhr", "Asr", "Maghrib", "Isha"]

/-- Python's `str.startswith` on the character lists. -/
def strStarts (pat s : String) : Bool := pat.data.isPrefixOf s.data

/-- The id test of the removal loop (lines 200-202):
`job.id.startswith("prayer_") or job.id.startswith("jumuah_")`. -/
def isGenJob (i : String) : Bool := strStarts "prayer_" i || strStarts "jumuah_" i

/-- First-match association-list lookup, the dictionary access `d[k]` /
membership `k in d` of the source (Python dicts have unique keys; the
list form is general). -/
def alookup {α : Type} : List (String × α) → String → Option α
  | [], _ => none
  | (k, v) :: t, key => if key = k then some v else alookup t key

/-- One iteration of the merge loop (lines 209-212): if the prayer is
absent from the accumulated times and present in the manual times, append
the manual entry (Python dict insertion appends at the end). -/
def mergeStep (manual : List (String × HM)) (acc : List (String × HM)) (p : String) :
    List (String × HM) :=
  match alookup acc p, alookup manual p with
  | none, some t => acc ++ [(p, t)]
  | _, _ => acc

/-- The merge loop (lines 209-212): scraped times take priority, manual
times fill gaps, iterating over `PRAYER_NAMES` in order. -/
def merge (scraped manual : List (String × HM)) : List (String × HM) :=
  PRAYER_NAMES.foldl (mergeStep manual) scraped

/-- The body of the per-prayer loop (lines 220-248): on Friday, Dhuhr is
skipped (Jumu'ah override); otherwise, if the prayer time is strictly in
the future, a pair of date jobs is created — scene on at the prayer time,
scene off `PRAYER_DURATION_MINUTES` later; a past-due prayer produces
nothing. -/
def perPrayer (isFriday : Bool) (now : Nat) (p : String) (t : HM) : List Job :=
  if isFriday = true ∧ p = "Dhuhr" then []
  else if t.toMin > now then
    [⟨"prayer_start_" ++ p, t.toMin, Act.enterSpecial⟩,
     ⟨"prayer_end_" ++ p, t.toMin + PRAYER_DURATION_MINUTES, Act.restoreDefault⟩]
  else []

/-- The Friday Jumu'ah override block (lines 250-272): only when today is
Friday and the window start is strictly in the future are the two window
jobs created. -/
def jumuahJobs (isFriday : Bool) (now : Nat) : List Job :=
  if isFriday = true ∧ JUMUAH_START > now then
    [⟨"jumuah_start", JUMUAH_START, Act.enterSpecial⟩,
     ⟨"jumuah_end", JUMUAH_END, Act.restoreDefault⟩]
  else []

/-- The full list of jobs one cycle asks the scheduler to add, in the
order the `add_job` calls are made. -/
def newJobs (cands : List (String × HM)) (isFriday : Bool) (now : Nat) : List Job :=
  (cands.flatMap (fun pt => perPrayer isFriday now pt.1 pt.2)) ++ jumuahJobs isFriday now

/-- `scheduler.add_job(..., replace_existing=True)`: any job with the
same id is replaced. -/
def addJob (jobs : List Job) (j : Job) : List Job :=
  jobs.filter (fun k => !(k.id == j.id)) ++ [j]

/-- The observable outcome of one `schedule_today` cycle: the scheduler's
job set afterwards, and the immediate actuator calls the cycle itself made
(the unconditional `switch_to_default()` of line 275 when reached). -/
structure CycleResult where
  jobs : List Job
  actuatorCalls : List Act
deriving DecidableEq

/-- `schedule_today` (lines 192-277).  In source order: remove every job
whose id starts with `prayer_` or `jumuah_`; merge scraped times over the
manual fallback; if the merged mapping is empty, log an error and return
(note: without reaching the `switch_to_default()` call); otherwise add the
per-prayer jobs, then the Jumu'ah jobs on Friday, and finally call
`switch_to_default()`. -/
def schedule_today (jobs : List Job) (scraped manual : List (String × HM))
    (isFriday : Bool) (now : Nat) : CycleResult :=
  if (merge scraped manual).isEmpty then
    ⟨jobs.filter (fun j => !(isGenJob j.id)), []⟩
  else
    ⟨(newJobs (merge scraped manual) isFriday now).foldl addJob
        (jobs.filter (fun j => !(isGenJob j.id))),
     [Act.restoreDefault]⟩

/-- The inputs of one daily cycle that come from outside the scheduler
state: the TimeSource result, the manual fallback, the weekday, and the
clock. -/
structure CycleInput where
  scraped : List (String × HM)
  manual : List (String × HM)
  isFriday : Bool
  now : Nat

/-- One cycle's effect on the scheduler's job set. -/
def runCycle (jobs : List Job) (c : CycleInput) : List Job :=
  (schedule_today jobs c.scraped c.manual c.isFriday c.now).jobs

/-- A sequence of daily cycles (startup, daily refresh, midday refresh,
across days). -/
def runCycles (jobs : List Job) (cs : List CycleInput) : List Job :=
  cs.foldl runCycle jobs

/-! ## The scraping loop (`scrape_iqama_times`, lines 99-151)

The browser interaction is abstracted into the sequence of page items the
loop observes.  A `label` item is one prayer-label element together with
the raw iqama text found next to it (`none` when the iqama label or the
time element is missing, lines 126-133).  A `fault` marks the point where
the Playwright/network code raises; the `try/except` around the whole
block catches it, and — because `iqama_times` is initialised before the
`try` — the entries accumulated so far are still returned (lines 101-151).
Names outside `PRAYER_NAMES` are skipped (line 115). -/

inductive ScrapeItem where
  | label (name : String) (raw : Option String)
  | fault
deriving DecidableEq

/-- Python dict assignment `d[k] = v`: update in place if the key exists,
otherwise append. -/
def dinsert (d : List (String × String)) (k v : String) : List (String × String) :=
  if (alookup d k).isSome then d.map (fun kv => if kv.1 = k then (k, v) else kv)
  else d ++ [(k, v)]

/-- One iteration of the scraping loop: skip non-fard names, skip missing
elements, skip unparseable times, store parsed times. -/
def scrapeStep (acc : List (String × String)) : ScrapeItem → List (String × String)
  | ScrapeItem.label name raw =>
    if name ∈ PRAYER_NAMES then
      match raw with
      | some r =>
        match convert_to_24h r with
        | some conv => dinsert acc name conv
        | none => acc
      | none => acc
    else acc
  | ScrapeItem.fault => acc

/-- The loop with the surrounding `try/except`: a `fault` aborts the loop
but the accumulated dictionary is still returned. -/
def scrapeGo (acc : List (String × String)) : List ScrapeItem → List (String × String)
  | [] => acc
  | it :: rest =>
    match it with
    | ScrapeItem.fault => acc
    | ScrapeItem.label name raw => scrapeGo (scrapeStep acc (ScrapeItem.label name raw)) rest

/-- `scrape_iqama_times`: process the observed page items starting from
the empty dictionary; always returns a (possibly empty) mapping. -/
def scrape_iqama_times (items : List ScrapeItem) : List (String × String) :=
  scrapeGo [] items

theorem scrape_small_example :
    scrape_iqama_times
      [ScrapeItem.label "Fajr" (some "6:15 AM"),
       ScrapeItem.label "Sunrise" (some "7:30 AM"),
       ScrapeItem.label "Dhuhr" (some "oops"),
       ScrapeItem.label "Asr" (some "4:45 PM"),
       ScrapeItem.fault,
       ScrapeItem.label "Isha" (some "8:00 PM")]
      = [("Fajr", "06:15"), ("Asr", "16:45")] := by decide

theorem schedule_today_small_example :
    (schedule_today [] [("Asr", ⟨16, 45⟩)] [] false 900).jobs =
      [⟨"prayer_start_Asr", 1005, Act.enterSpecial⟩,
       ⟨"prayer_end_Asr", 1015, Act.restoreDefault⟩] := by decide

/-! ## Helper lemmas about strings and job ids -/

theorem sdata_append (s t : String) : (s ++ t).data = s.data ++ t.data := by
  cases s; cases t; rfl

theorem str_data_inj {s t : String} (h : s.data = t.data) : s = t := by
  cases s; cases t; exact congrArg String.mk h

theorem str_append_cancel {a p q : String} (h : a ++ p = a ++ q) : p = q := by
  apply str_data_inj
  have hd := congrArg String.data h
  rw [sdata_append, sdata_append] at hd
  exact List.append_cancel_left hd

theorem str_append_empty (s : String) : s ++ "" = s := by
  apply str_data_inj
  rw [sdata_append]
  simp

theorem str_append_ne (a b : String) (n : Nat) (hna : n ≤ a.data.length)
    (hnb : n ≤ b.data.length) (hne : a.data.take n ≠ b.data.take n)
    (p q : String) : a ++ p ≠ b ++ q := by
  intro h
  have hd := congrArg String.data h
  rw [sdata_append, sdata_append] at hd
  have h2 := congrArg (List.take n) hd
  rw [List.take_append_of_le_length hna, List.take_append_of_le_length hnb] at h2
  exact hne h2

theorem prayer_start_inj {p q : String}
    (h : "prayer_start_" ++ p = "prayer_start_" ++ q) : p = q :=
  str_append_cancel h

theorem prayer_end_inj {p q : String}
    (h : "prayer_end_" ++ p = "prayer_end_" ++ q) : p = q :=
  str_append_cancel h

theorem prayer_start_ne_end (p q : String) :
    "prayer_start_" ++ p ≠ "prayer_end_" ++ q :=
  str_append_ne "prayer_start_" "prayer_end_" 8 (by decide) (by decide) (by decide) p q

theorem prayer_start_ne_jumuah_start (p : String) :
    "prayer_start_" ++ p ≠ "jumuah_start" := by
  have h := str_append_ne "prayer_start_" "jumuah_start" 1 (by decide) (by decide)
    (by decide) p ""
  rwa [str_append_empty] at h

theorem prayer_start_ne_jumuah_end (p : String) :
    "prayer_start_" ++ p ≠ "jumuah_end" := by
  have h := str_append_ne "prayer_start_" "jumuah_end" 1 (by decide) (by decide)
    (by decide) p ""
  rwa [str_append_empty] at h

theorem prayer_end_ne_jumuah_start (p : String) :
    "prayer_end_" ++ p ≠ "jumuah_start" := by
  have h := str_append_ne "prayer_end_" "jumuah_start" 1 (by decide) (by decide)
    (by decide) p ""
  rwa [str_append_empty] at h

theorem prayer_end_ne_jumuah_end (p : String) :
    "prayer_end_" ++ p ≠ "jumuah_end" := by
  have h := str_append_ne "prayer_end_" "jumuah_end" 1 (by decide) (by decide)
    (by decide) p ""
  rwa [str_append_empty] at h

theorem isPrefixOf_self_append (l t : List Char) : l.isPrefixOf (l ++ t) = true := by
  induction l with
  | nil => simp [List.isPrefixOf]
  | cons a as ih => simp [List.isPrefixOf, ih]

theorem isPrefixOf_cons_ne {a b : Char} (as bs : List Char) (h : (a == b) = false) :
    (a :: as).isPrefixOf (b :: bs) = false := by
  simp [List.isPrefixOf, h]

theorem strStarts_prayer_start (p : String) :
    strStarts "prayer_" ("prayer_start_" ++ p) = true := by
  unfold strStarts
  rw [sdata_append]
  rw [show "prayer_start_".data = "prayer_".data ++ "start_".data from by decide,
    List.append_assoc]
  exact isPrefixOf_self_append _ _

theorem strStarts_prayer_end (p : String) :
    strStarts "prayer_" ("prayer_end_" ++ p) = true := by
  unfold strStarts
  rw [sdata_append]
  rw [show "prayer_end_".data = "prayer_".data ++ "end_".data from by decide,
    List.append_assoc]
  exact isPrefixOf_self_append _ _

theorem isGenJob_prayer_start (p : String) :
    isGenJob ("prayer_start_" ++ p) = true := by
  unfold isGenJob
  rw [strStarts_prayer_start]
  rfl

theorem isGenJob_prayer_end (p : String) :
    isGenJob ("prayer_end_" ++ p) = true := by
  unfold isGenJob
  rw [strStarts_prayer_end]
  rfl

theorem strStarts_jumuah_prayer_start (p : String) :
    strStarts "jumuah_" ("prayer_start_" ++ p) = false := by
  unfold strStarts
  rw [sdata_append]
  rw [show "jumuah_".data = 'j' :: "umuah_".data from by decide,
    show "prayer_start_".data = 'p' :: "rayer_start_".data from by decide,
    List.cons_append]
  exact isPrefixOf_cons_ne _ _ (by decide)

theorem strStarts_jumuah_prayer_end (p : String) :
    strStarts "jumuah_" ("prayer_end_" ++ p) = false := by
  unfold strStarts
  rw [sdata_append]
  rw [show "jumuah_".data = 'j' :: "umuah_".data from by decide,
    show "prayer_end_".data = 'p' :: "rayer_end_".data from by decide,
    List.cons_append]
  exact isPrefixOf_cons_ne _ _ (by decide)

/-! ## Structural lemmas about the job set and `add_job` -/

theorem mem_addJob {j x : Job} {acc : List Job} (h : j ∈ addJob acc x) :
    j ∈ acc ∨ j = x := by
  unfold addJob at h
  rcases List.mem_append.mp h with h1 | h1
  · exact Or.inl (List.mem_filter.mp h1).1
  · exact Or.inr (List.mem_singleton.mp h1)

theorem addJob_no_clash {x : Job} {acc : List Job}
    (h : ∀ k ∈ acc, ¬ k.id = x.id) : addJob acc x = acc ++ [x] := by
  unfold addJob
  congr 1
  apply List.filter_eq_self.mpr
  intro k hk
  simpa using h k hk

theorem addJob_base_append (base acc : List Job) (x : Job)
    (hb : ∀ k ∈ base, ¬ k.id = x.id) :
    addJob (base ++ acc) x = base ++ addJob acc x := by
  unfold addJob
  rw [List.filter_append, List.append_assoc]
  congr 1
  apply List.filter_eq_self.mpr
  intro k hk
  simpa using hb k hk

theorem foldl_addJob_base (new : List Job) : ∀ (base acc : List Job),
    (∀ j ∈ new, ∀ k ∈ base, ¬ k.id = j.id) →
    new.foldl addJob (base ++ acc) = base ++ new.foldl addJob acc := by
  induction new with
  | nil => intro base acc _; rfl
  | cons x t ih =>
    intro base acc h
    have hx : ∀ k ∈ base, ¬ k.id = x.id := h x (List.mem_cons_self x t)
    show t.foldl addJob (addJob (base ++ acc) x) = base ++ t.foldl addJob (addJob acc x)
    rw [addJob_base_append base acc x hx]
    exact ih base (addJob acc x) (fun j hj => h j (List.mem_cons_of_mem x hj))

theorem foldl_addJob_split (new base : List Job)
    (h : ∀ j ∈ new, ∀ k ∈ base, ¬ k.id = j.id) :
    new.foldl addJob base = base ++ new.foldl addJob [] := by
  have h2 := foldl_addJob_base new base [] h
  rwa [List.append_nil] at h2

theorem mem_foldl_addJob (new : List Job) : ∀ (acc : List Job) (j : Job),
    j ∈ new.foldl addJob acc → j ∈ acc ∨ j ∈ new := by
  induction new with
  | nil => intro acc j h; exact Or.inl h
  | cons x t ih =>
    intro acc j h
    rcases ih (addJob acc x) j h with h1 | h1
    · rcases mem_addJob h1 with h2 | h2
      · exact Or.inl h2
      · exact Or.inr (h2 ▸ List.mem_cons_self x t)
    · exact Or.inr (List.mem_cons_of_mem x h1)

theorem foldl_addJob_nodup (new : List Job) : ∀ (acc : List Job),
    (new.map Job.id).Nodup →
    (∀ k ∈ acc, ∀ j ∈ new, ¬ k.id = j.id) →
    new.foldl addJob acc = acc ++ new := by
  induction new with
  | nil => intro acc _ _; exact (List.append_nil acc).symm
  | cons x t ih =>
    intro acc hnd h
    have hx : ∀ k ∈ acc, ¬ k.id = x.id :=
      fun k hk => h k hk x (List.mem_cons_self x t)
    show t.foldl addJob (addJob acc x) = acc ++ x :: t
    rw [addJob_no_clash hx]
    have hnd2 : x.id ∉ t.map Job.id ∧ (t.map Job.id).Nodup := by
      rw [List.map_cons] at hnd
      exact List.nodup_cons.mp hnd
    have hcond : ∀ k ∈ acc ++ [x], ∀ j ∈ t, ¬ k.id = j.id := by
      intro k hk j hj
      rcases List.mem_append.mp hk with h1 | h1
      · exact h k h1 j (List.mem_cons_of_mem x hj)
      · intro heq
        rw [List.mem_singleton.mp h1] at heq
        exact hnd2.1 (heq ▸ List.mem_map_of_mem Job.id hj)
    rw [ih (acc ++ [x]) hnd2.2 hcond, List.append_assoc]
    rfl

/-! ## Lemmas about lookup and the merge -/

/-- First-defined option, the shape `alookup` takes across an append. -/
def ofirst {α : Type} (a b : Option α) : Option α :=
  match a with
  | some x => some x
  | none => b

theorem ofirst_none {α : Type} (b : Option α) : ofirst none b = b := rfl

theorem ofirst_some {α : Type} (x : α) (b : Option α) : ofirst (some x) b = some x := rfl

theorem ofirst_none_right {α : Type} (a : Option α) : ofirst a none = a := by
  cases a <;> rfl

theorem alookup_append {α : Type} (l1 l2 : List (String × α)) (k : String) :
    alookup (l1 ++ l2) k = ofirst (alookup l1 k) (alookup l2 k) := by
  induction l1 with
  | nil => rfl
  | cons x t ih =>
    rcases x with ⟨a, v⟩
    by_cases h : k = a
    · simp [alookup, h, ofirst]
    · simp [alookup, h, ih]

theorem alookup_singleton {α : Type} (p k : String) (v : α) :
    alookup [(p, v)] k = if k = p then some v else none := rfl

theorem alookup_eq_none_iff {α : Type} (l : List (String × α)) (k : String) :
    alookup l k = none ↔ k ∉ l.map Prod.fst := by
  induction l with
  | nil => simp [alookup]
  | cons x t ih =>
    rcases x with ⟨a, v⟩
    by_cases h : k = a
    · simp [alookup, h]
    · simp [alookup, h, ih]

theorem alookup_mem {α : Type} {l : List (String × α)} {k : String} {v : α}
    (h : alookup l k = some v) : (k, v) ∈ l := by
  induction l with
  | nil => exact absurd h (by simp [alookup])
  | cons x t ih =>
    rcases x with ⟨a, w⟩
    simp only [alookup] at h
    by_cases h2 : k = a
    · rw [if_pos h2] at h
      have hv : w = v := Option.some.inj h
      subst hv
      subst h2
      exact List.mem_cons_self _ _
    · rw [if_neg h2] at h
      exact List.mem_cons_of_mem _ (ih h)

theorem mem_alookup_of_nodup {α : Type} {l : List (String × α)} {k : String} {v : α}
    (hnd : (l.map Prod.fst).Nodup) (h : (k, v) ∈ l) : alookup l k = some v := by
  induction l with
  | nil => exact absurd h (List.not_mem_nil _)
  | cons x t ih =>
    rcases x with ⟨a, w⟩
    rw [List.map_cons] at hnd
    have hnd2 := List.nodup_cons.mp hnd
    rcases List.mem_cons.mp h with h1 | h1
    · have hka : k = a := congrArg Prod.fst h1
      have hvw : v = w := congrArg Prod.snd h1
      subst hka
      subst hvw
      simp [alookup]
    · by_cases h2 : k = a
      · exfalso
        apply hnd2.1
        rw [← h2]
        simpa using List.mem_map_of_mem Prod.fst h1
      · simp only [alookup]
        rw [if_neg h2]
        exact ih hnd2.2 h1

theorem merge_fold_lookup (manual : List (String × HM)) (l : List String) :
    ∀ (acc : List (String × HM)) (k : String),
    alookup (l.foldl (mergeStep manual) acc) k =
      ofirst (alookup acc k) (if k ∈ l then alookup manual k else none) := by
  induction l with
  | nil =>
    intro acc k
    simp [ofirst_none_right]
  | cons p t ih =>
    intro acc k
    show alookup (t.foldl (mergeStep manual) (mergeStep manual acc p)) k = _
    rw [ih (mergeStep manual acc p) k]
    cases hacc : alookup acc p with
    | some v =>
      have hstep : mergeStep manual acc p = acc := by simp [mergeStep, hacc]
      rw [hstep]
      by_cases hk : k = p
      · subst hk
        rw [hacc, ofirst_some, ofirst_some]
      · simp [List.mem_cons, hk]
    | none =>
      cases hman : alookup manual p with
      | some w =>
        have hstep : mergeStep manual acc p = acc ++ [(p, w)] := by
          simp [mergeStep, hacc, hman]
        rw [hstep, alookup_append, alookup_singleton]
        by_cases hk : k = p
        · subst hk
          rw [hacc, hman, if_pos rfl, ofirst_none, ofirst_some]
          simp [List.mem_cons, ofirst]
        · rw [if_neg hk, ofirst_none_right]
          simp [List.mem_cons, hk]
      | none =>
        have hstep : mergeStep manual acc p = acc := by simp [mergeStep, hacc, hman]
        rw [hstep]
        by_cases hk : k = p
        · subst hk
          rw [hacc, hman, ofirst_none, ofirst_none]
          by_cases hmem : k ∈ t <;> simp [hmem, List.mem_cons]
        · simp [List.mem_cons, hk]

/-- The content of the merged mapping, looked up anywhere: scraped values
win, manual values fill gaps for recognized prayer names. -/
theorem merge_lookup (scraped manual : List (String × HM)) (k : String) :
    alookup (merge scraped manual) k =
      ofirst (alookup scraped k) (if k ∈ PRAYER_NAMES then alookup manual k else none) :=
  merge_fold_lookup manual PRAYER_NAMES scraped k

theorem merge_keys_nodup {scraped : List (String × HM)} (manual : List (String × HM))
    (h : (scraped.map Prod.fst).Nodup) :
    ((merge scraped manual).map Prod.fst).Nodup := by
  have main : ∀ (l : List String) (acc : List (String × HM)),
      (acc.map Prod.fst).Nodup → ((l.foldl (mergeStep manual) acc).map Prod.fst).Nodup := by
    intro l
    induction l with
    | nil => intro acc hacc; exact hacc
    | cons p t ih =>
      intro acc hacc
      apply ih
      unfold mergeStep
      cases hl : alookup acc p with
      | some v => exact hacc
      | none =>
        cases hm : alookup manual p with
        | some w =>
          rw [List.map_append]
          have hnp : p ∉ acc.map Prod.fst := (alookup_eq_none_iff acc p).mp hl
          apply List.Nodup.append hacc (List.nodup_singleton p)
          intro x hx hx2
          rw [List.mem_singleton.mp hx2] at hx
          exact hnp hx
        | none => exact hacc
  exact main PRAYER_NAMES scraped h

/-! ## Shape lemmas about the jobs a cycle creates -/

theorem mem_perPrayer {j : Job} {f : Bool} {now : Nat} {q : String} {u : HM}
    (h : j ∈ perPrayer f now q u) :
    ¬ (f = true ∧ q = "Dhuhr") ∧
      (j.id = "prayer_start_" ++ q ∨ j.id = "prayer_end_" ++ q) := by
  unfold perPrayer at h
  split at h
  · exact absurd h (List.not_mem_nil j)
  · constructor
    · assumption
    · split at h
      · rcases List.mem_cons.mp h with h1 | h1
        · exact Or.inl (congrArg Job.id h1)
        · exact Or.inr (congrArg Job.id (List.mem_singleton.mp h1))
      · exact absurd h (List.not_mem_nil j)

theorem mem_jumuahJobs {j : Job} {f : Bool} {now : Nat}
    (h : j ∈ jumuahJobs f now) :
    (f = true ∧ JUMUAH_START > now) ∧
      (j = ⟨"jumuah_start", JUMUAH_START, Act.enterSpecial⟩ ∨
       j = ⟨"jumuah_end", JUMUAH_END, Act.restoreDefault⟩) := by
  unfold jumuahJobs at h
  split at h
  · constructor
    · assumption
    · rcases List.mem_cons.mp h with h1 | h1
      · exact Or.inl h1
      · exact Or.inr (List.mem_singleton.mp h1)
  · exact absurd h (List.not_mem_nil j)

theorem mem_newJobs {j : Job} {cands : List (String × HM)} {f : Bool} {now : Nat}
    (h : j ∈ newJobs cands f now) :
    (∃ q u, (q, u) ∈ cands ∧ j ∈ perPrayer f now q u) ∨ j ∈ jumuahJobs f now := by
  unfold newJobs at h
  rcases List.mem_append.mp h with h1 | h1
  · rcases List.mem_flatMap.mp h1 with ⟨pt, hpt, hj⟩
    exact Or.inl ⟨pt.1, pt.2, hpt, hj⟩
  · exact Or.inr h1

theorem newJobs_all_gen {j : Job} {cands : List (String × HM)} {f : Bool} {now : Nat}
    (h : j ∈ newJobs cands f now) : isGenJob j.id = true := by
  rcases mem_newJobs h with ⟨q, u, _, hj⟩ | hj
  · rcases (mem_perPrayer hj).2 with h2 | h2
    · rw [h2]; exact isGenJob_prayer_start q
    · rw [h2]; exact isGenJob_prayer_end q
  · rcases (mem_jumuahJobs hj).2 with h2 | h2 <;> rw [h2] <;> decide

theorem newJobs_cons (q : String) (u : HM) (rest : List (String × HM))
    (f : Bool) (now : Nat) :
    newJobs ((q, u) :: rest) f now = perPrayer f now q u ++ newJobs rest f now := by
  unfold newJobs
  rw [List.flatMap_cons, List.append_assoc]

theorem mem_ids_perPrayer {i : String} {f : Bool} {now : Nat} {q : String} {u : HM}
    (h : i ∈ (perPrayer f now q u).map Job.id) :
    i = "prayer_start_" ++ q ∨ i = "prayer_end_" ++ q := by
  rcases List.mem_map.mp h with ⟨j, hj, hid⟩
  rcases (mem_perPrayer hj).2 with h2 | h2
  · exact Or.inl (hid ▸ h2)
  · exact Or.inr (hid ▸ h2)

theorem mem_ids_newJobs {i : String} {cands : List (String × HM)} {f : Bool} {now : Nat}
    (h : i ∈ (newJobs cands f now).map Job.id) :
    (∃ q, q ∈ cands.map Prod.fst ∧ (i = "prayer_start_" ++ q ∨ i = "prayer_end_" ++ q)) ∨
      i = "jumuah_start" ∨ i = "jumuah_end" := by
  rcases List.mem_map.mp h with ⟨j, hj, hid⟩
  rcases mem_newJobs hj with ⟨q, u, hq, hjp⟩ | hjp
  · exact Or.inl ⟨q, List.mem_map_of_mem Prod.fst hq,
      (mem_perPrayer hjp).2.imp (hid ▸ ·) (hid ▸ ·)⟩
  · rcases (mem_jumuahJobs hjp).2 with h2 | h2
    · exact Or.inr (Or.inl (by rw [← hid, h2]))
    · exact Or.inr (Or.inr (by rw [← hid, h2]))

theorem newJobs_ids_nodup (f : Bool) (now : Nat) : ∀ (cands : List (String × HM)),
    (cands.map Prod.fst).Nodup → ((newJobs cands f now).map Job.id).Nodup := by
  intro cands
  induction cands with
  | nil =>
    intro _
    have h0 : newJobs [] f now = jumuahJobs f now := rfl
    rw [h0]
    unfold jumuahJobs
    split
    · decide
    · exact List.nodup_nil
  | cons x rest ih =>
    intro hnd
    rcases x with ⟨q, u⟩
    rw [List.map_cons] at hnd
    have h1 := List.nodup_cons.mp hnd
    rw [newJobs_cons, List.map_append]
    apply List.Nodup.append
    · unfold perPrayer
      split
      · exact List.nodup_nil
      · split
        · refine List.nodup_cons.mpr ⟨?_, List.nodup_singleton _⟩
          intro hmem
          exact prayer_start_ne_end q q (List.mem_singleton.mp hmem)
        · exact List.nodup_nil
    · exact ih h1.2
    · intro i hi hi2
      rcases mem_ids_perPrayer hi with hip | hip <;>
        rcases mem_ids_newJobs hi2 with ⟨q2, hq2, hiq | hiq⟩ | hiq | hiq
      · exact h1.1 (prayer_start_inj (hip ▸ hiq :
          "prayer_start_" ++ q = "prayer_start_" ++ q2) ▸ hq2)
      · exact prayer_start_ne_end q q2 (hip ▸ hiq)
      · exact prayer_start_ne_jumuah_start q (hip ▸ hiq)
      · exact prayer_start_ne_jumuah_end q (hip ▸ hiq)
      · exact prayer_start_ne_end q2 q (hiq ▸ hip)
      · exact h1.1 (prayer_end_inj (hip ▸ hiq :
          "prayer_end_" ++ q = "prayer_end_" ++ q2) ▸ hq2)
      · exact prayer_end_ne_jumuah_start q (hip ▸ hiq)
      · exact prayer_end_ne_jumuah_end q (hip ▸ hiq)

/-! ## The two branches of `schedule_today` -/

theorem schedule_today_of_empty (s : List Job) (scraped manual : List (String × HM))
    (f : Bool) (now : Nat) (h : merge scraped manual = []) :
    schedule_today s scraped manual f now =
      ⟨s.filter (fun j => !(isGenJob j.id)), []⟩ := by
  unfold schedule_today
  rw [h]
  rfl

theorem schedule_today_of_nonempty (s : List Job) (scraped manual : List (String × HM))
    (f : Bool) (now : Nat) (h : ¬ merge scraped manual = []) :
    schedule_today s scraped manual f now =
      ⟨(newJobs (merge scraped manual) f now).foldl addJob
          (s.filter (fun j => !(isGenJob j.id))),
       [Act.restoreDefault]⟩ := by
  unfold schedule_today
  rw [if_neg]
  intro hc
  exact h (List.isEmpty_iff.mp hc)

/-! ## Association lists with equal lookups are permutations -/

/-- Removal of the first occurrence of an entry (proof infrastructure for
comparing the merged mapping with the manual mapping). -/
def eraseEntry (l : List (String × HM)) (e : String × HM) : List (String × HM) :=
  match l with
  | [] => []
  | x :: t => if x = e then t else x :: eraseEntry t e

theorem perm_cons_eraseEntry {l : List (String × HM)} {e : String × HM}
    (h : e ∈ l) : l.Perm (e :: eraseEntry l e) := by
  induction l with
  | nil => cases h
  | cons x t ih =>
    by_cases hx : x = e
    · subst hx
      simp only [eraseEntry, if_pos rfl]
      exact List.Perm.refl _
    · have hmem : e ∈ t :=
        (List.mem_cons.mp h).resolve_left (fun hh => hx hh.symm)
      simp only [eraseEntry]
      rw [if_neg hx]
      exact ((ih hmem).cons x).trans (List.Perm.swap e x (eraseEntry t e))

theorem eraseEntry_sublist (l : List (String × HM)) (e : String × HM) :
    (eraseEntry l e).Sublist l := by
  induction l with
  | nil => simp [eraseEntry]
  | cons x t ih =>
    simp only [eraseEntry]
    by_cases hx : x = e
    · rw [if_pos hx]
      exact List.sublist_cons_self x t
    · rw [if_neg hx]
      exact ih.cons₂ x

theorem alookup_eraseEntry_ne {l : List (String × HM)} {k k' : String} {v : HM}
    (hne : ¬ k' = k) : alookup (eraseEntry l (k, v)) k' = alookup l k' := by
  induction l with
  | nil => rfl
  | cons x t ih =>
    simp only [eraseEntry]
    by_cases hx : x = (k, v)
    · rw [if_pos hx, hx]
      simp only [alookup]
      rw [if_neg hne]
    · rw [if_neg hx]
      rcases x with ⟨a, w⟩
      simp only [alookup]
      by_cases hk : k' = a
      · rw [if_pos hk, if_pos hk]
      · rw [if_neg hk, if_neg hk, ih]

theorem alookup_eraseEntry_self {l : List (String × HM)} {k : String} {v : HM}
    (hnd : (l.map Prod.fst).Nodup) (hmem : (k, v) ∈ l) :
    alookup (eraseEntry l (k, v)) k = none := by
  induction l with
  | nil => cases hmem
  | cons x t ih =>
    rcases x with ⟨a, w⟩
    rw [List.map_cons] at hnd
    have hnd2 := List.nodup_cons.mp hnd
    simp only [eraseEntry]
    by_cases hx : (a, w) = (k, v)
    · rw [if_pos hx]
      have hka : a = k := congrArg Prod.fst hx
      apply (alookup_eq_none_iff t k).mpr
      rw [← hka]
      exact hnd2.1
    · rw [if_neg hx]
      have hmem2 : (k, v) ∈ t := by
        rcases List.mem_cons.mp hmem with h1 | h1
        · exact absurd h1.symm hx
        · exact h1
      simp only [alookup]
      by_cases hk : k = a
      · exfalso
        apply hnd2.1
        rw [hk] at hmem2
        simpa using List.mem_map_of_mem Prod.fst hmem2
      · rw [if_neg hk]
        exact ih hnd2.2 hmem2

theorem keys_nodup_eraseEntry {l : List (String × HM)} (e : String × HM)
    (hnd : (l.map Prod.fst).Nodup) : ((eraseEntry l e).map Prod.fst).Nodup :=
  hnd.sublist ((eraseEntry_sublist l e).map Prod.fst)

theorem perm_of_alookup_eq : ∀ (l1 l2 : List (String × HM)),
    (l1.map Prod.fst).Nodup → (l2.map Prod.fst).Nodup →
    (∀ k, alookup l1 k = alookup l2 k) → l1.Perm l2 := by
  intro l1
  induction l1 with
  | nil =>
    intro l2 _ _ h
    cases l2 with
    | nil => exact List.Perm.refl []
    | cons x t =>
      exfalso
      rcases x with ⟨a, w⟩
      have ha := h a
      simp [alookup] at ha
  | cons x t ih =>
    intro l2 hnd1 hnd2 h
    rcases x with ⟨k, v⟩
    have hk : alookup l2 k = some v := by
      rw [← h k]
      simp [alookup]
    have hmem : (k, v) ∈ l2 := alookup_mem hk
    have hperm2 : l2.Perm ((k, v) :: eraseEntry l2 (k, v)) := perm_cons_eraseEntry hmem
    rw [List.map_cons] at hnd1
    have hnd1c := List.nodup_cons.mp hnd1
    have htail : t.Perm (eraseEntry l2 (k, v)) := by
      apply ih _ hnd1c.2 (keys_nodup_eraseEntry _ hnd2)
      intro k'
      by_cases hkk : k' = k
      · subst hkk
        rw [(alookup_eq_none_iff t k').mpr hnd1c.1, alookup_eraseEntry_self hnd2 hmem]
      · rw [alookup_eraseEntry_ne hkk, ← h k']
        simp only [alookup]
        rw [if_neg hkk]
    exact (htail.cons (k, v)).trans hperm2.symm

/-! ## C1 — the end-of-cycle forced default state -/

/-- C1 counterexample: with an empty TimeSource result and an empty manual
fallback, the cycle returns early (line 216) and never invokes the
actuator, so it does not force the device to the default state. -/
theorem cycle_empty_no_default_call :
    Act.restoreDefault ∉ (schedule_today [] [] [] false 0).actuatorCalls := by
  decide

/-- C1 (amended): whenever the merged candidate mapping is non-empty, the
cycle ends by invoking the actuator exactly once to force the default
state; when the merged mapping is empty, the cycle returns early without
any actuator call. -/
theorem cycle_forces_default_of_candidates (s : List Job)
    (scraped manual : List (String × HM)) (f : Bool) (now : Nat)
    (h : ¬ merge scraped manual = []) :
    (schedule_today s scraped manual f now).actuatorCalls = [Act.restoreDefault] := by
  rw [schedule_today_of_nonempty s scraped manual f now h]

theorem cycle_forces_default_of_candidates_witness :
    ¬ merge [("Fajr", ⟨6, 0⟩)] [] = [] ∧
    (schedule_today [] [("Fajr", ⟨6, 0⟩)] [] false 0).actuatorCalls =
      [Act.restoreDefault] :=
  ⟨by decide,
   cycle_forces_default_of_candidates [] [("Fajr", ⟨6, 0⟩)] [] false 0 (by decide)⟩

/-! ## C2 — the Jumu'ah window actions -/

/-- C2 counterexample: on a Friday with the window start (13:25) strictly
after `now`, but with an empty merged candidate mapping, the cycle returns
early (line 216) before the Jumu'ah block, so neither window action is
emitted. -/
theorem jumuah_window_missing_on_empty :
    JUMUAH_START > 0 ∧
    (⟨"jumuah_start", JUMUAH_START, Act.enterSpecial⟩ : Job) ∉
      (schedule_today [] [] [] true 0).jobs ∧
    (⟨"jumuah_end", JUMUAH_END, Act.restoreDefault⟩ : Job) ∉
      (schedule_today [] [] [] true 0).jobs := by
  decide

/-- C2 (amended): whenever the merged candidate mapping is non-empty, on a
Friday with the window start strictly after `now` the installed generation
contains the enter-special-state action at the window start and the
restore-default-state action at the window end. -/
theorem jumuah_window_scheduled_of_candidates (s : List Job)
    (scraped manual : List (String × HM)) (now : Nat)
    (h : ¬ merge scraped manual = []) (hs : JUMUAH_START > now) :
    (⟨"jumuah_start", JUMUAH_START, Act.enterSpecial⟩ : Job) ∈
      (schedule_today s scraped manual true now).jobs ∧
    (⟨"jumuah_end", JUMUAH_END, Act.restoreDefault⟩ : Job) ∈
      (schedule_today s scraped manual true now).jobs := by
  rw [schedule_today_of_nonempty s scraped manual true now h]
  have hj : jumuahJobs true now =
      [⟨"jumuah_start", JUMUAH_START, Act.enterSpecial⟩,
       ⟨"jumuah_end", JUMUAH_END, Act.restoreDefault⟩] := by
    unfold jumuahJobs
    rw [if_pos ⟨rfl, hs⟩]
  show _ ∈ (newJobs (merge scraped manual) true now).foldl addJob _ ∧
    _ ∈ (newJobs (merge scraped manual) true now).foldl addJob _
  unfold newJobs
  rw [hj, List.foldl_append]
  have hstart : (⟨"jumuah_start", JUMUAH_START, Act.enterSpecial⟩ : Job) ∈
      addJob (List.foldl addJob
        (s.filter (fun j => !(isGenJob j.id)))
        ((merge scraped manual).flatMap fun pt => perPrayer true now pt.1 pt.2))
        ⟨"jumuah_start", JUMUAH_START, Act.enterSpecial⟩ := by
    unfold addJob
    exact List.mem_append.mpr (Or.inr (List.mem_singleton.mpr rfl))
  constructor
  · show _ ∈ List.foldl addJob _ [_, _]
    show _ ∈ addJob (addJob _ _) _
    unfold addJob
    apply List.mem_append.mpr
    apply Or.inl
    apply List.mem_filter.mpr
    refine ⟨hstart, by decide⟩
  · show _ ∈ List.foldl addJob _ [_, _]
    show _ ∈ addJob (addJob _ _) _
    unfold addJob
    exact List.mem_append.mpr (Or.inr (List.mem_singleton.mpr rfl))

theorem jumuah_window_scheduled_of_candidates_witness :
    ¬ merge [("Fajr", ⟨6, 0⟩)] [] = [] ∧ JUMUAH_START > 0 ∧
    (⟨"jumuah_start", JUMUAH_START, Act.enterSpecial⟩ : Job) ∈
      (schedule_today [] [("Fajr", ⟨6, 0⟩)] [] true 0).jobs ∧
    (⟨"jumuah_end", JUMUAH_END, Act.restoreDefault⟩ : Job) ∈
      (schedule_today [] [("Fajr", ⟨6, 0⟩)] [] true 0).jobs := by
  refine ⟨by decide, by decide, ?_, ?_⟩
  · exact (jumuah_window_scheduled_of_candidates [] [("Fajr", ⟨6, 0⟩)] [] 0
      (by decide) (by decide)).1
  · exact (jumuah_window_scheduled_of_candidates [] [("Fajr", ⟨6, 0⟩)] [] 0
      (by decide) (by decide)).2

/-! ## C10 — no window actions once the window has started -/

/-- C10: on Friday, when the window start is not strictly after `now`
(so in particular for any restart inside the window, `now` still before
the window end), the cycle installs no `jumuah_`-prefixed job at all —
notably no restore-default action at the window end. -/
theorem no_window_actions_once_started (s : List Job)
    (scraped manual : List (String × HM)) (now : Nat)
    (h : JUMUAH_START ≤ now) :
    (schedule_today s scraped manual true now).jobs.filter
      (fun j => strStarts "jumuah_" j.id) = [] := by
  apply List.filter_eq_nil_iff.mpr
  intro j hj hc
  have hnotgen : ∀ k : Job, k ∈ s.filter (fun j2 => !(isGenJob j2.id)) →
      ¬ strStarts "jumuah_" k.id = true := by
    intro k hk hkc
    have h2 := (List.mem_filter.mp hk).2
    rw [Bool.not_eq_true'] at h2
    have h3 := (Bool.or_eq_false_iff.mp (by simpa [isGenJob] using h2)).2
    rw [hkc] at h3
    cases h3
  by_cases hm : merge scraped manual = []
  · rw [schedule_today_of_empty s scraped manual true now hm] at hj
    exact hnotgen j hj hc
  · rw [schedule_today_of_nonempty s scraped manual true now hm] at hj
    rcases mem_foldl_addJob _ _ _ hj with h1 | h1
    · exact hnotgen j h1 hc
    · rcases mem_newJobs h1 with ⟨q, u, _, hp⟩ | hp
      · rcases (mem_perPrayer hp).2 with h2 | h2
        · rw [h2, strStarts_jumuah_prayer_start q] at hc
          cases hc
        · rw [h2, strStarts_jumuah_prayer_end q] at hc
          cases hc
      · exact absurd (mem_jumuahJobs hp).1.2 (Nat.not_lt.mpr h)

theorem no_window_actions_once_started_witness :
    JUMUAH_START ≤ 830 ∧ 830 < JUMUAH_END ∧
    (schedule_today [⟨"jumuah_end", 855, Act.restoreDefault⟩]
        [("Isha", ⟨20, 0⟩)] [] true 830).jobs.filter
      (fun j => strStarts "jumuah_" j.id) = [] :=
  ⟨by decide, by decide,
   no_window_actions_once_started [⟨"jumuah_end", 855, Act.restoreDefault⟩]
     [("Isha", ⟨20, 0⟩)] [] 830 (by decide)⟩

/-! ## C5 — Friday Dhuhr is never individually scheduled -/

/-- The actions of the generation that belong to one named event. -/
def eventJobs (p : String) (l : List Job) : List Job :=
  l.filter (fun j => j.id == "prayer_start_" ++ p || j.id == "prayer_end_" ++ p)

/-- C5: on Friday, no `Dhuhr` enter/restore pair is ever present after the
cycle, whatever the TimeSource output, the manual fallback, the prior job
set and the clock (lines 226-228 skip Dhuhr, and any prior `prayer_`
job was removed first). -/
theorem friday_dhuhr_never_scheduled (s : List Job)
    (scraped manual : List (String × HM)) (now : Nat) :
    eventJobs "Dhuhr" (schedule_today s scraped manual true now).jobs = [] := by
  apply List.filter_eq_nil_iff.mpr
  intro j hj hc
  have hid : j.id = "prayer_start_" ++ "Dhuhr" ∨ j.id = "prayer_end_" ++ "Dhuhr" :=
    (Bool.or_eq_true_iff.mp hc).imp beq_iff_eq.mp beq_iff_eq.mp
  have hgen : isGenJob j.id = true := by
    rcases hid with h2 | h2
    · rw [h2]; exact isGenJob_prayer_start "Dhuhr"
    · rw [h2]; exact isGenJob_prayer_end "Dhuhr"
  have hnotkept : ∀ k : Job, k ∈ s.filter (fun j2 => !(isGenJob j2.id)) → k ≠ j := by
    intro k hk hkj
    have h2 := (List.mem_filter.mp hk).2
    rw [hkj, hgen] at h2
    cases h2
  by_cases hm : merge scraped manual = []
  · rw [schedule_today_of_empty s scraped manual true now hm] at hj
    exact hnotkept j hj rfl
  · rw [schedule_today_of_nonempty s scraped manual true now hm] at hj
    rcases mem_foldl_addJob _ _ _ hj with h1 | h1
    · exact hnotkept j h1 rfl
    · rcases mem_newJobs h1 with ⟨q, u, _, hp⟩ | hp
      · have hq : ¬ q = "Dhuhr" := fun hqd => (mem_perPrayer hp).1 ⟨rfl, hqd⟩
        rcases (mem_perPrayer hp).2 with h2 | h2 <;> rcases hid with h3 | h3
        · exact hq (prayer_start_inj (h2 ▸ h3))
        · exact prayer_start_ne_end q "Dhuhr" (h2 ▸ h3)
        · exact prayer_start_ne_end "Dhuhr" q (h2 ▸ h3).symm
        · exact hq (prayer_end_inj (h2 ▸ h3))
      · have hjid : j.id = "jumuah_start" ∨ j.id = "jumuah_end" := by
          rcases (mem_jumuahJobs hp).2 with h2 | h2
          · exact Or.inl (by rw [h2])
          · exact Or.inr (by rw [h2])
        rcases hjid with h2 | h2 <;> rcases hid with h3 | h3
        · exact prayer_start_ne_jumuah_start "Dhuhr" (h3.symm.trans h2)
        · exact prayer_end_ne_jumuah_start "Dhuhr" (h3.symm.trans h2)
        · exact prayer_start_ne_jumuah_end "Dhuhr" (h3.symm.trans h2)
        · exact prayer_end_ne_jumuah_end "Dhuhr" (h3.symm.trans h2)

/-! ## C3 — generation replacement and the recurring triggers -/

/-- C3: (1) every cycle's job set decomposes as the prior state with every
`prayer_`/`jumuah_`-prefixed job removed, followed by the freshly
installed jobs (which all carry those prefixes) — the removal loop of
lines 200-202 runs before any `add_job`; (2) across any sequence of cycle
invocations, a job with id `daily_refresh` or `midday_refresh` is present
afterwards exactly when it was present before — the recurring triggers are
never removed (nor created) by replacement. -/
theorem generation_replacement_frame :
    (∀ (s : List Job) (scraped manual : List (String × HM)) (f : Bool) (now : Nat),
      ∃ fresh : List Job,
        (schedule_today s scraped manual f now).jobs =
          s.filter (fun j => !(isGenJob j.id)) ++ fresh ∧
        ∀ j ∈ fresh, isGenJob j.id = true) ∧
    (∀ (s : List Job) (cs : List CycleInput) (j : Job),
      j.id = "daily_refresh" ∨ j.id = "midday_refresh" →
      (j ∈ runCycles s cs ↔ j ∈ s)) := by
  have part1 : ∀ (s : List Job) (scraped manual : List (String × HM)) (f : Bool)
      (now : Nat),
      ∃ fresh : List Job,
        (schedule_today s scraped manual f now).jobs =
          s.filter (fun j => !(isGenJob j.id)) ++ fresh ∧
        ∀ j ∈ fresh, isGenJob j.id = true := by
    intro s scraped manual f now
    by_cases hm : merge scraped manual = []
    · refine ⟨[], ?_, ?_⟩
      · rw [schedule_today_of_empty s scraped manual f now hm, List.append_nil]
      · intro j hj
        cases hj
    · refine ⟨(newJobs (merge scraped manual) f now).foldl addJob [], ?_, ?_⟩
      · rw [schedule_today_of_nonempty s scraped manual f now hm]
        apply foldl_addJob_split
        intro j hj k hk hkj
        have hgen := newJobs_all_gen hj
        have hkgen := (List.mem_filter.mp hk).2
        rw [hkj, hgen] at hkgen
        exact absurd hkgen (by decide)
      · intro j hj
        rcases mem_foldl_addJob _ _ _ hj with h1 | h1
        · cases h1
        · exact newJobs_all_gen h1
  refine ⟨part1, ?_⟩
  intro s cs j hid
  induction cs generalizing s with
  | nil => exact Iff.rfl
  | cons c t ih =>
    have hjgen : isGenJob j.id = false := by
      rcases hid with h | h <;> rw [h] <;> decide
    have hstep : j ∈ runCycle s c ↔ j ∈ s := by
      obtain ⟨fresh, heq, hfr⟩ := part1 s c.scraped c.manual c.isFriday c.now
      unfold runCycle
      rw [heq, List.mem_append]
      constructor
      · rintro (h1 | h1)
        · exact (List.mem_filter.mp h1).1
        · have h2 := hfr j h1
          rw [hjgen] at h2
          exact absurd h2 (by decide)
      · intro h1
        exact Or.inl (List.mem_filter.mpr ⟨h1, by rw [hjgen]; rfl⟩)
    show j ∈ runCycles (runCycle s c) t ↔ j ∈ s
    rw [ih (runCycle s c), hstep]

theorem generation_replacement_frame_witness :
    (⟨"daily_refresh", 5, Act.refreshCycle⟩ : Job) ∈
      runCycles
        [⟨"daily_refresh", 5, Act.refreshCycle⟩,
         ⟨"prayer_start_Fajr", 360, Act.enterSpecial⟩]
        [⟨[("Asr", ⟨16, 45⟩)], [], false, 900⟩] ↔
    (⟨"daily_refresh", 5, Act.refreshCycle⟩ : Job) ∈
      [⟨"daily_refresh", 5, Act.refreshCycle⟩,
       ⟨"prayer_start_Fajr", 360, Act.enterSpecial⟩] :=
  generation_replacement_frame.2
    [⟨"daily_refresh", 5, Act.refreshCycle⟩,
     ⟨"prayer_start_Fajr", 360, Act.enterSpecial⟩]
    [⟨[("Asr", ⟨16, 45⟩)], [], false, 900⟩]
    ⟨"daily_refresh", 5, Act.refreshCycle⟩ (Or.inl rfl)

/-! ## C7 — merge priority and the manual fallback -/

/-- C7: (1) an event present in the scraped mapping keeps its scraped
value in the merge even when the manual fallback also defines it;
(2) when the scraped mapping is empty (and the manual fallback is a
well-formed mapping over recognized prayer names), the generation compiled
from the merged mapping is a permutation of — the same action set as — the
generation compiled purely from the manual fallback. -/
theorem merge_scraped_priority_and_manual_fallback :
    (∀ (scraped manual : List (String × HM)) (p : String) (t u : HM),
      alookup scraped p = some t → alookup manual p = some u →
      alookup (merge scraped manual) p = some t) ∧
    (∀ (manual : List (String × HM)) (f : Bool) (now : Nat),
      (manual.map Prod.fst).Nodup →
      (∀ k ∈ manual.map Prod.fst, k ∈ PRAYER_NAMES) →
      (newJobs (merge [] manual) f now).Perm (newJobs manual f now)) := by
  constructor
  · intro scraped manual p t u h1 _
    rw [merge_lookup, h1]
    rfl
  · intro manual f now hnd hsub
    have hlk : ∀ k, alookup (merge [] manual) k = alookup manual k := by
      intro k
      rw [merge_lookup]
      rw [show alookup ([] : List (String × HM)) k = none from rfl, ofirst_none]
      by_cases hk : k ∈ PRAYER_NAMES
      · rw [if_pos hk]
      · rw [if_neg hk]
        symm
        apply (alookup_eq_none_iff manual k).mpr
        intro hmem
        exact hk (hsub k hmem)
    have hperm : (merge [] manual).Perm manual :=
      perm_of_alookup_eq _ _ (merge_keys_nodup manual (by simp)) hnd hlk
    unfold newJobs
    exact (hperm.flatMap_right _).append_right _

theorem merge_scraped_priority_and_manual_fallback_witness :
    alookup (merge [("Fajr", ⟨5, 30⟩)] [("Fajr", ⟨6, 0⟩)]) "Fajr" = some ⟨5, 30⟩ ∧
    (newJobs (merge [] [("Dhuhr", ⟨13, 30⟩)]) false 0).Perm
      (newJobs [("Dhuhr", ⟨13, 30⟩)] false 0) :=
  ⟨merge_scraped_priority_and_manual_fallback.1
      [("Fajr", ⟨5, 30⟩)] [("Fajr", ⟨6, 0⟩)] "Fajr" ⟨5, 30⟩ ⟨6, 0⟩
      (by decide) (by decide),
   merge_scraped_priority_and_manual_fallback.2
      [("Dhuhr", ⟨13, 30⟩)] false 0 (by decide) (by decide)⟩

/-! ## C8 — the scraper returns partial results and parses independently -/

theorem scrapeGo_fault : ∀ (pre : List ScrapeItem) (acc : List (String × String))
    (rest : List ScrapeItem),
    scrapeGo acc (pre ++ ScrapeItem.fault :: rest) =
      scrapeGo acc (pre ++ [ScrapeItem.fault]) := by
  intro pre
  induction pre with
  | nil =>
    intro acc rest
    rfl
  | cons it t ih =>
    intro acc rest
    cases it with
    | fault => rfl
    | label n r => exact ih (scrapeStep acc (ScrapeItem.label n r)) rest

theorem scrapeStep_noparse (acc : List (String × String)) (name raw : String)
    (h : convert_to_24h raw = none) :
    scrapeStep acc (ScrapeItem.label name (some raw)) = acc := by
  simp [scrapeStep, h]

theorem scrapeGo_noparse : ∀ (pre : List ScrapeItem) (acc : List (String × String))
    (rest : List ScrapeItem) (name raw : String),
    convert_to_24h raw = none →
    scrapeGo acc (pre ++ ScrapeItem.label name (some raw) :: rest) =
      scrapeGo acc (pre ++ rest) := by
  intro pre
  induction pre with
  | nil =>
    intro acc rest name raw h
    show scrapeGo (scrapeStep acc (ScrapeItem.label name (some raw))) rest =
      scrapeGo acc rest
    rw [scrapeStep_noparse acc name raw h]
  | cons it t ih =>
    intro acc rest name raw h
    cases it with
    | fault => rfl
    | label n r => exact ih (scrapeStep acc (ScrapeItem.label n r)) rest name raw h

/-- C8: the scraper never propagates a failure — a raised exception at any
point of the page interaction (`fault`) aborts the attempt but the
function still returns the mapping accumulated so far (so the caller gets
a possibly-empty mapping, never an exception); and an event whose raw text
fails to parse is simply skipped, leaving every other event's result —
in particular all earlier successful parses — unchanged. -/
theorem scrape_returns_partial_and_independent :
    (∀ (pre rest : List ScrapeItem),
      scrape_iqama_times (pre ++ ScrapeItem.fault :: rest) =
        scrape_iqama_times (pre ++ [ScrapeItem.fault])) ∧
    (∀ (pre rest : List ScrapeItem) (name raw : String),
      convert_to_24h raw = none →
      scrape_iqama_times (pre ++ ScrapeItem.label name (some raw) :: rest) =
        scrape_iqama_times (pre ++ rest)) :=
  ⟨fun pre rest => scrapeGo_fault pre [] rest,
   fun pre rest name raw h => scrapeGo_noparse pre [] rest name raw h⟩

theorem scrape_returns_partial_and_independent_witness :
    convert_to_24h "nonsense" = none ∧
    scrape_iqama_times ([ScrapeItem.label "Fajr" (some "6:15 AM")] ++
        ScrapeItem.label "Dhuhr" (some "nonsense") :: []) =
      scrape_iqama_times ([ScrapeItem.label "Fajr" (some "6:15 AM")] ++ []) :=
  ⟨by decide,
   scrape_returns_partial_and_independent.2 [ScrapeItem.label "Fajr" (some "6:15 AM")]
     [] "Dhuhr" "nonsense" (by decide)⟩

/-! ## C6 — each future candidate contributes exactly its enter/restore pair -/

theorem flatMap_filter_event (f : Bool) (now : Nat) (p : String) (t : HM) :
    ∀ l : List (String × HM), (l.map Prod.fst).Nodup → (p, t) ∈ l →
    (l.flatMap (fun pt => perPrayer f now pt.1 pt.2)).filter
        (fun j => j.id == "prayer_start_" ++ p || j.id == "prayer_end_" ++ p) =
      perPrayer f now p t := by
  intro l
  induction l with
  | nil =>
    intro _ h
    cases h
  | cons x rest ih =>
    intro hnd hmem
    rcases x with ⟨q, u⟩
    rw [List.map_cons] at hnd
    have hndc := List.nodup_cons.mp hnd
    rw [List.flatMap_cons, List.filter_append]
    by_cases hqp : q = p
    · subst hqp
      have hut : u = t := by
        rcases List.mem_cons.mp hmem with h1 | h1
        · exact (congrArg Prod.snd h1).symm
        · exfalso
          apply hndc.1
          simpa using List.mem_map_of_mem Prod.fst h1
      subst hut
      have hper : (perPrayer f now q u).filter
          (fun j => j.id == "prayer_start_" ++ q || j.id == "prayer_end_" ++ q) =
          perPrayer f now q u := by
        apply List.filter_eq_self.mpr
        intro j hj
        rcases (mem_perPrayer hj).2 with h2 | h2
        · rw [h2]
          apply Bool.or_eq_true_iff.mpr
          exact Or.inl (beq_self_eq_true _)
        · rw [h2]
          apply Bool.or_eq_true_iff.mpr
          exact Or.inr (beq_self_eq_true _)
      have hrest : (rest.flatMap (fun pt => perPrayer f now pt.1 pt.2)).filter
          (fun j => j.id == "prayer_start_" ++ q || j.id == "prayer_end_" ++ q) = [] := by
        apply List.filter_eq_nil_iff.mpr
        intro j hj hc
        have hid : j.id = "prayer_start_" ++ q ∨ j.id = "prayer_end_" ++ q :=
          (Bool.or_eq_true_iff.mp hc).imp beq_iff_eq.mp beq_iff_eq.mp
        rcases List.mem_flatMap.mp hj with ⟨pt, hpt, hjp⟩
        rcases (mem_perPrayer hjp).2 with h2 | h2 <;> rcases hid with h3 | h3
        · apply hndc.1
          rw [← prayer_start_inj (h2.symm.trans h3)]
          simpa using List.mem_map_of_mem Prod.fst hpt
        · exact prayer_start_ne_end pt.1 q (h2.symm.trans h3)
        · exact prayer_start_ne_end q pt.1 (h3.symm.trans h2)
        · apply hndc.1
          rw [← prayer_end_inj (h2.symm.trans h3)]
          simpa using List.mem_map_of_mem Prod.fst hpt
      rw [hper, hrest, List.append_nil]
    · have hmem2 : (p, t) ∈ rest := by
        rcases List.mem_cons.mp hmem with h1 | h1
        · exact absurd (congrArg Prod.fst h1) (fun hh => hqp hh.symm)
        · exact h1
      have hhead : (perPrayer f now q u).filter
          (fun j => j.id == "prayer_start_" ++ p || j.id == "prayer_end_" ++ p) = [] := by
        apply List.filter_eq_nil_iff.mpr
        intro j hj hc
        have hid : j.id = "prayer_start_" ++ p ∨ j.id = "prayer_end_" ++ p :=
          (Bool.or_eq_true_iff.mp hc).imp beq_iff_eq.mp beq_iff_eq.mp
        rcases (mem_perPrayer hj).2 with h2 | h2 <;> rcases hid with h3 | h3
        · exact hqp (prayer_start_inj (h2.symm.trans h3))
        · exact prayer_start_ne_end q p (h2.symm.trans h3)
        · exact prayer_start_ne_end p q (h3.symm.trans h2)
        · exact hqp (prayer_end_inj (h2.symm.trans h3))
      rw [hhead, List.nil_append]
      exact ih hndc.2 hmem2

/-- C6: a candidate event surviving the merge (with the override not
claiming it) contributes actions to the installed generation exactly when
its time is strictly after `now`, and then exactly the pair —
enter-special-state at the event time, restore-default-state at the event
time plus `PRAYER_DURATION_MINUTES`; a past-due candidate contributes no
actions at all.  The duplicate-free–keys hypothesis mirrors the Python
dict the scraped mapping comes from. -/
theorem event_pair_iff_future (s : List Job) (scraped manual : List (String × HM))
    (f : Bool) (now : Nat) (p : String) (t : HM)
    (hnd : (scraped.map Prod.fst).Nodup)
    (hmem : (p, t) ∈ merge scraped manual)
    (hnD : ¬ (f = true ∧ p = "Dhuhr")) :
    eventJobs p (schedule_today s scraped manual f now).jobs =
      (if t.toMin > now then
        [⟨"prayer_start_" ++ p, t.toMin, Act.enterSpecial⟩,
         ⟨"prayer_end_" ++ p, t.toMin + PRAYER_DURATION_MINUTES, Act.restoreDefault⟩]
      else []) := by
  have hm : ¬ merge scraped manual = [] := List.ne_nil_of_mem hmem
  rw [schedule_today_of_nonempty s scraped manual f now hm]
  have hmnd : ((merge scraped manual).map Prod.fst).Nodup := merge_keys_nodup manual hnd
  have hids : ((newJobs (merge scraped manual) f now).map Job.id).Nodup :=
    newJobs_ids_nodup f now (merge scraped manual) hmnd
  have hsplit : (newJobs (merge scraped manual) f now).foldl addJob
      (s.filter (fun j => !(isGenJob j.id))) =
      s.filter (fun j => !(isGenJob j.id)) ++ newJobs (merge scraped manual) f now := by
    apply foldl_addJob_nodup _ _ hids
    intro k hk j hj hkj
    have hgen := newJobs_all_gen hj
    have hkgen := (List.mem_filter.mp hk).2
    rw [hkj, hgen] at hkgen
    exact absurd hkgen (by decide)
  show eventJobs p ((newJobs (merge scraped manual) f now).foldl addJob
      (s.filter (fun j => !(isGenJob j.id)))) = _
  rw [hsplit]
  unfold eventJobs
  rw [List.filter_append]
  have hkept : (s.filter (fun j => !(isGenJob j.id))).filter
      (fun j => j.id == "prayer_start_" ++ p || j.id == "prayer_end_" ++ p) = [] := by
    apply List.filter_eq_nil_iff.mpr
    intro j hj hc
    have hid : j.id = "prayer_start_" ++ p ∨ j.id = "prayer_end_" ++ p :=
      (Bool.or_eq_true_iff.mp hc).imp beq_iff_eq.mp beq_iff_eq.mp
    have hgen : isGenJob j.id = true := by
      rcases hid with h2 | h2
      · rw [h2]
        exact isGenJob_prayer_start p
      · rw [h2]
        exact isGenJob_prayer_end p
    have h2 := (List.mem_filter.mp hj).2
    rw [hgen] at h2
    exact absurd h2 (by decide)
  rw [hkept, List.nil_append]
  unfold newJobs
  rw [List.filter_append]
  have hjum : (jumuahJobs f now).filter
      (fun j => j.id == "prayer_start_" ++ p || j.id == "prayer_end_" ++ p) = [] := by
    apply List.filter_eq_nil_iff.mpr
    intro j hj hc
    have hid : j.id = "prayer_start_" ++ p ∨ j.id = "prayer_end_" ++ p :=
      (Bool.or_eq_true_iff.mp hc).imp beq_iff_eq.mp beq_iff_eq.mp
    have hjid : j.id = "jumuah_start" ∨ j.id = "jumuah_end" := by
      rcases (mem_jumuahJobs hj).2 with h2 | h2
      · exact Or.inl (by rw [h2])
      · exact Or.inr (by rw [h2])
    rcases hjid with h2 | h2 <;> rcases hid with h3 | h3
    · exact prayer_start_ne_jumuah_start p (h3.symm.trans h2)
    · exact prayer_end_ne_jumuah_start p (h3.symm.trans h2)
    · exact prayer_start_ne_jumuah_end p (h3.symm.trans h2)
    · exact prayer_end_ne_jumuah_end p (h3.symm.trans h2)
  rw [hjum, List.append_nil,
    flatMap_filter_event f now p t (merge scraped manual) hmnd hmem]
  unfold perPrayer
  rw [if_neg hnD]

theorem event_pair_iff_future_witness :
    ((([("Asr", (⟨16, 45⟩ : HM))].map Prod.fst).Nodup ∧
      ("Asr", (⟨16, 45⟩ : HM)) ∈ merge [("Asr", ⟨16, 45⟩)] [] ∧
      ¬ (false = true ∧ "Asr" = "Dhuhr")) ∧
     eventJobs "Asr" (schedule_today [] [("Asr", ⟨16, 45⟩)] [] false 900).jobs =
       (if (⟨16, 45⟩ : HM).toMin > 900 then
         [⟨"prayer_start_" ++ "Asr", (⟨16, 45⟩ : HM).toMin, Act.enterSpecial⟩,
          ⟨"prayer_end_" ++ "Asr",
           (⟨16, 45⟩ : HM).toMin + PRAYER_DURATION_MINUTES, Act.restoreDefault⟩]
       else [])) ∧
    eventJobs "Fajr" (schedule_today [] [("Fajr", ⟨5, 0⟩)] [] false 900).jobs = [] := by
  refine ⟨⟨⟨by decide, by decide, by decide⟩, ?_⟩, ?_⟩
  · exact event_pair_iff_future [] [("Asr", ⟨16, 45⟩)] [] false 900 "Asr" ⟨16, 45⟩
      (by decide) (by decide) (by decide)
  · have h := event_pair_iff_future [] [("Fajr", ⟨5, 0⟩)] [] false 900 "Fajr" ⟨5, 0⟩
      (by decide) (by decide) (by decide)
    rw [h]
    decide

end ObsSalahSwitcher
